import Mathlib

/-!
Shallow embedding of the radioTuner firmware (src/radioTuner.ino): the cycle
sequencer, log recorder, retention manager, data bridge and log file server.
Strings model Arduino `String`s; one `Char` stands for one stored byte (all
content produced by the firmware is ASCII).
-/

namespace RadioTuner

/-- Characters treated as whitespace by C `atol` (via `isspace`). -/
def isSpaceChar (c : Char) : Bool :=
  c = ' ' || c = '\t' || c = '\n' || c = '\x0b' || c = '\x0c' || c = '\r'

/-- Accumulate leading decimal digits, stopping at the first non-digit:
    the accumulation step shared by `atol` and `Stream::parseInt`. -/
def digitsVal : List Char → Nat → Nat
  | [], acc => acc
  | c :: rest, acc => if c.isDigit then digitsVal rest (acc * 10 + (c.toNat - 48)) else acc

/-- `String::toInt()` (Arduino), i.e. C `atol`: skip whitespace, optional sign,
    then decimal digits; no digits yields `0`. Modelled exactly for values
    within `long` range, which covers every name this firmware generates. -/
def atol (s : String) : Int :=
  match s.data.dropWhile (fun c => isSpaceChar c) with
  | [] => 0
  | c :: rest =>
    if c = '-' then - (digitsVal rest 0 : Int)
    else if c = '+' then (digitsVal rest 0 : Int)
    else (digitsVal (c :: rest) 0 : Int)

/-- `Stream::parseInt()`: skip characters that are neither digits nor `'-'`,
    then parse an optional sign and decimal digits; nothing parsed yields `0`. -/
def parseIntStream (s : String) : Int :=
  match s.data.dropWhile (fun c => !c.isDigit && c ≠ '-') with
  | [] => 0
  | c :: rest =>
    if c = '-' then - (digitsVal rest 0 : Int)
    else (digitsVal (c :: rest) 0 : Int)

/-- Conversion of a C integer value to `uint32_t` (reduction mod `2^32`). -/
def toUInt32Nat (i : Int) : Nat := (i.emod (2 ^ 32)).toNat

/-- Decimal digits, least significant first, with an explicit fuel bound so
    that the recursion is structural; the fuel is never exhausted when it
    starts at the number itself. -/
def natDigitsRevAux : Nat → Nat → List Char
  | _, 0 => []
  | 0, _ + 1 => []
  | f + 1, n + 1 => Nat.digitChar ((n + 1) % 10) :: natDigitsRevAux f ((n + 1) / 10)

/-- Decimal digits of `n`, least significant first (empty for `0`). -/
def natDigitsRev (n : Nat) : List Char := natDigitsRevAux n n

/-- Decimal rendering of an unsigned integer, as `String(uint32_t)` / `%lu`. -/
def natToStr (n : Nat) : String :=
  if n = 0 then "0" else String.mk (natDigitsRev n).reverse

/-- Arduino `String::startsWith`. -/
def strStartsWith (s p : String) : Bool := p.data.isPrefixOf s.data

/-- Arduino `String::endsWith`. -/
def strEndsWith (s p : String) : Bool := p.data.isSuffixOf s.data

/-- Arduino `String::substring(from, to)`: the characters at indices
    `[from, to)`, clamped to the string length. -/
def substrRange (s : String) (a b : Nat) : String := String.mk ((s.data.take b).drop a)

/-- Arduino `String::indexOf(ch, fromIndex)`: the position of the first
    occurrence of `ch` at index `≥ i0`, if any. -/
def idxOfFrom (s : String) (c : Char) (i0 : Nat) : Option Nat :=
  ((s.data.drop i0).findIdx? (fun x => x = c)).map (fun j => i0 + j)

/-- The log-file name filter of `pruneOldLogs`:
    `name.startsWith("/log_") && name.endsWith(".txt")`. -/
def isLogName (name : String) : Bool :=
  strStartsWith name "/log_" && strEndsWith name ".txt"

/-- Id extraction in `pruneOldLogs`:
    `name.substring(5, name.indexOf('.', 5)).toInt()` stored into a `uint32_t`.
    A missing `'.'` gives `-1`, which `substring`'s unsigned clamping turns
    into the end of the string. -/
def extractId (name : String) : Nat :=
  toUInt32Nat (atol (substrRange name 5 ((idxOfFrom name '.' 5).getD name.data.length)))

/-- The SPIFFS flash store: an association list from full path to file
    content. Enumeration (`openNextFile`) follows the list order. -/
abbrev Store := List (String × String)

/-- `SPIFFS.open(name, "r")` + full read: the content of the named file. -/
def storeRead : Store → String → Option String
  | [], _ => none
  | (n, c) :: rest, name => if n = name then some c else storeRead rest name

/-- `SPIFFS.exists(name)`. -/
def storeExists (s : Store) (name : String) : Bool := (storeRead s name).isSome

/-- `SPIFFS.remove(name)`. -/
def storeRemove (s : Store) (name : String) : Store :=
  s.filter (fun p => p.1 != name)

/-- Opening with mode `"w"` and writing: truncate an existing file in place,
    or create a new one. -/
def storeWrite (s : Store) (name content : String) : Store :=
  if storeExists s name then
    s.map (fun p => if p.1 = name then (name, content) else p)
  else s ++ [(name, content)]

/-- Opening with `FILE_APPEND` and writing: append to an existing file or
    create it. -/
def storeAppend (s : Store) (name content : String) : Store :=
  if storeExists s name then
    s.map (fun p => if p.1 = name then (p.1, p.2 ++ content) else p)
  else s ++ [(name, content)]

/-- `%03lu`: decimal rendering left-padded with `'0'` to width 3. -/
def pad3 (n : Nat) : String :=
  String.mk (List.replicate (3 - (natToStr n).data.length) '0') ++ natToStr n

/-- The `snprintf(ts, sizeof(ts), "%lu.%03lu", s, ms)` timestamp of
    `appendLog` (the 16-byte buffer never truncates a 32-bit value). -/
def timestamp (s ms : Nat) : String := natToStr s ++ "." ++ pad3 ms

/-- The log line built by `appendLog` at elapsed milliseconds `e`. -/
def renderLine (src msg : String) (e : Nat) : String :=
  timestamp (e / 1000) (e % 1000) ++ " " ++ src ++ " \"" ++ msg ++ "\"\r\n"

/-- The tail-buffer update of `appendLog`: append the line, then keep only the
    final 4096 bytes (`logBuffer.substring(logBuffer.length() - 4096)`). -/
def tailAppend (buf line : String) : String :=
  if (buf ++ line).data.length > 4096 then
    String.mk ((buf ++ line).data.drop ((buf ++ line).data.length - 4096))
  else buf ++ line

/-- The session state: flash store plus the RAM globals of the sketch. -/
structure Dev where
  store : Store
  cycleId : Nat
  logFilename : String
  logBuffer : String
  console : List String
deriving Repr, DecidableEq

/-- `appendLog(src, msg)` at elapsed milliseconds `e`.  `flashOk` models
    whether `SPIFFS.open(logFilename, FILE_APPEND)` succeeds; on failure the
    flash step is silently skipped (`if (f) { ... }`) and nothing else
    changes. -/
def appendLog (d : Dev) (flashOk : Bool) (src msg : String) (e : Nat) : Dev :=
  let line := renderLine src msg e
  { d with
    console := d.console ++ [line]
    logBuffer := tailAppend d.logBuffer line
    store := if flashOk then storeAppend d.store d.logFilename line else d.store }

/-- Ordered-map insertion modelling `std::map<uint32_t, String>`:
    `files[id] = name` inserts in key order, overwriting an existing key. -/
def mapInsert (id : Nat) (v : String) : List (Nat × String) → List (Nat × String)
  | [] => [(id, v)]
  | (k, w) :: rest =>
    if id < k then (id, v) :: (k, w) :: rest
    else if id = k then (id, v) :: rest
    else (k, w) :: mapInsert id v rest

/-- The enumeration loop of `pruneOldLogs`: fold the store's files into the
    id → name map, keeping only names matching the log pattern. -/
def buildMap : Store → List (Nat × String) → List (Nat × String)
  | [], m => m
  | (name, _) :: rest, m =>
    buildMap rest (if isLogName name then mapInsert (extractId name) name m else m)

/-- The deletion loop of `pruneOldLogs`: while the map holds more than `n`
    entries, remove the file of the lowest id (`files.begin()`) from the
    store and drop its map entry. -/
def pruneLoop (n : Nat) : List (Nat × String) → Store → Store
  | [], s => s
  | e :: rest, s =>
    if rest.length + 1 > n then pruneLoop n rest (storeRemove s e.2) else s

/-- `pruneOldLogs` with retention limit `n`. -/
def prune (n : Nat) (s : Store) : Store := pruneLoop n (buildMap s []) s

/-- `pruneOldLogs()` as in the source (`MAX_LOG_FILES = 5`). -/
def pruneOldLogs (s : Store) : Store := prune 5 s

/-- The cycle sequencer and first log entry of `setup()` (the flash-relevant
    part): prune, read `/cycle.txt` (`parseInt`; a missing file gives `0`),
    increment the `uint32_t` counter, write it back with `println` (decimal
    plus CRLF), then record the boot entry, which creates this cycle's log
    file.  The remaining `appendLog` calls of `setup` only append further
    lines to the same file; the boot entry is modelled at elapsed time 0
    (`bootMillis` is taken immediately before it). -/
def boot (s0 : Store) : Dev :=
  let s1 := pruneOldLogs s0
  let prev : Nat :=
    match storeRead s1 "/cycle.txt" with
    | some c => toUInt32Nat (parseIntStream c)
    | none => 0
  let cyc := (prev + 1) % 2 ^ 32
  let s2 := storeWrite s1 "/cycle.txt" (natToStr cyc ++ "\r\n")
  appendLog
    { store := s2, cycleId := cyc, logFilename := "/log_" ++ natToStr cyc ++ ".txt",
      logBuffer := "", console := [] }
    true "SYSTEM" ("Boot cycle=" ++ natToStr cyc) 0

/-- The device after `k` boots starting from empty flash, with no storage
    errors. Only the flash store survives across boots. -/
def bootsDev : Nat → Dev
  | 0 => { store := [], cycleId := 0, logFilename := "", logBuffer := "", console := [] }
  | k + 1 => boot (bootsDev k).store

/-- Responses of the HTTP handler in `loop()`. -/
inductive HttpResp where
  /-- `200 OK` with `Content-Disposition: attachment; filename="<filename>"`,
      `Content-Type: application/octet-stream`, `Content-Length:
      <contentLength>`, then the streamed body. -/
  | download (contentLength : Nat) (filename : String) (body : String)
  /-- The listing page: the filenames rendered as `<li>` download links. -/
  | listing (files : List String)
  /-- `404 Not Found` with a plain-text message and no file bytes. -/
  | notFound (msg : String)
deriving Repr, DecidableEq

/-- `while (dl.available()) client.write(dl.read());` — stream the remaining
    bytes of the open file one at a time. -/
def streamFile : List Char → List Char
  | [] => []
  | b :: rest => b :: streamFile rest

/-- The `GET /download?file=` branch: open `"/" + fn`; on success send
    `Content-Length = dl.size()`, attachment name `radioTuner_<fn>` and the
    streamed bytes; on failure a 404 with a plain-text message. -/
def handleDownload (s : Store) (fn : String) : HttpResp :=
  match storeRead s ("/" ++ fn) with
  | some content =>
    .download content.data.length ("radioTuner_" ++ fn) (String.mk (streamFile content.data))
  | none => .notFound "File not found"

/-- Query-parameter extraction: `p1 = req.indexOf('=')`,
    `p2 = req.indexOf(' ', p1)`, `fn = req.substring(p1 + 1, p2)`. Inside the
    guarded branch `'='` is always present (at index 18 of the prefix); a
    missing terminating space yields `-1`, which `substring`'s unsigned
    clamping turns into the end of the string. -/
def parseDownloadName (req : String) : String :=
  let p1 := (idxOfFrom req '=' 0).getD req.data.length
  let p2 := (idxOfFrom req ' ' p1).getD req.data.length
  substrRange req (p1 + 1) p2

/-- The listing loop: for ids `i` in `[start, cycleId]` with
    `start = cycleId > MAX_LOG_FILES ? cycleId - MAX_LOG_FILES + 1 : 1`, emit
    `log_<i>.txt` when the backing file exists in the store. -/
def listingFiles (s : Store) (cyc : Nat) : List String :=
  let start := if cyc > 5 then cyc - 5 + 1 else 1
  (List.range' start (cyc + 1 - start)).filterMap (fun i =>
    let fn := "log_" ++ natToStr i ++ ".txt"
    if storeExists s ("/" ++ fn) then some fn else none)

/-- Request dispatch of the HTTP handler in `loop()`. -/
def handleRequest (d : Dev) (req : String) : HttpResp :=
  if strStartsWith req "GET /download?file=" then
    handleDownload d.store (parseDownloadName req)
  else
    .listing (listingFiles d.store d.cycleId)

/-- `CharCallbacks::onWrite`: a nonempty payload is recorded
    (`source = "BLE"`) and its bytes are then written verbatim to RS232.
    Returns the new state and the bytes written to the serial peripheral. -/
def bleOnWrite (d : Dev) (flashOk : Bool) (e : Nat) (rx : String) : Dev × List Char :=
  if rx.data.length > 0 then (appendLog d flashOk "BLE" rx e, rx.data) else (d, [])

/-- The RS232 drain loop: read each available byte, accumulate it
    (`rs += b`) and echo it back (`RS232.write(b)`). Returns the accumulated
    message and the echoed bytes in emission order. -/
def rs232Drain (rs : String) (echoed : List Char) : List Char → String × List Char
  | [] => (rs, echoed)
  | b :: rest => rs232Drain (rs.push b) (echoed ++ [b]) rest

/-- The serial branch of `loop()`: when bytes are available, drain them with
    echo, then record the whole burst as one `"RS232"` entry. -/
def serialPoll (d : Dev) (flashOk : Bool) (e : Nat) (input : List Char) : Dev × List Char :=
  if input.isEmpty then (d, [])
  else
    let p := rs232Drain "" [] input
    (appendLog d flashOk "RS232" p.1 e, p.2)

/-- Externally visible actions emitted by the post-boot event handlers, in
    program order. -/
inductive Action where
  | setConnected (b : Bool)
  | logEntry (src msg : String)
  | advertisingStart
  | serialWrite (bytes : List Char)
  | netResponse (r : HttpResp)
deriving Repr, DecidableEq

/-- The post-boot event sources: BLE callbacks, the serial poll, WiFi AP
    station events and the HTTP handler. -/
inductive Event where
  | bleConnect
  | bleDisconnect
  | bleWrite (rx : String)
  | serialData (input : List Char)
  | wifiStaConnected
  | wifiStaDisconnected
  | httpRequest (req : String)
deriving Repr, DecidableEq

/-- The action trace of each post-boot event handler:
    `ServerCallbacks::onConnect/onDisconnect`, `CharCallbacks::onWrite`, the
    RS232 branch of `loop()`, `WiFiEvent`, and the HTTP branch of `loop()`. -/
def handleEvent (d : Dev) : Event → List Action
  | .bleConnect => [.setConnected true, .logEntry "BLE" "Connected"]
  | .bleDisconnect =>
    [.setConnected false, .logEntry "BLE" "Disconnected", .advertisingStart,
     .logEntry "BLE" "Advertising"]
  | .bleWrite rx =>
    if rx.data.length > 0 then [.logEntry "BLE" rx, .serialWrite rx.data] else []
  | .serialData input =>
    if input.isEmpty then []
    else
      let p := rs232Drain "" [] input
      (p.2.map (fun b => Action.serialWrite [b])) ++ [.logEntry "RS232" p.1]
  | .wifiStaConnected => [.logEntry "WIFI" "Client connected"]
  | .wifiStaDisconnected => [.logEntry "WIFI" "Client disconnected"]
  | .httpRequest req => [.netResponse (handleRequest d req)]

/-- Observation: the files of the store whose names match the log pattern. -/
def logFiles (s : Store) : Store := s.filter (fun p => isLogName p.1)

/-- Observation: the names of the matching log files, in store order. -/
def logNames (s : Store) : List String := (logFiles s).map (fun p => p.1)

/-- Observation: the extracted cycle ids of the matching log files. -/
def logIds (s : Store) : List Nat := (logFiles s).map (fun p => extractId p.1)

/-- A session as a sequence of `record` calls `(flashOk, src, msg, elapsed)`:
    `appendLog` folded over the state. Any intermediate state of a session is
    `recordsFold` of a prefix of the calls. -/
def recordsFold (d : Dev) : List (Bool × String × String × Nat) → Dev
  | [] => d
  | r :: rest => recordsFold (appendLog d r.1 r.2.1 r.2.2.1 r.2.2.2) rest

/-- The concatenation (as bytes) of all lines recorded in a session. -/
def sessionLines (rs : List (Bool × String × String × Nat)) : List Char :=
  (rs.map (fun r => (renderLine r.2.1 r.2.2.1 r.2.2.2).data)).flatten

/-- A store of seven distinct log-file names in which two names parse to the
    same id: `/log_1.txt` and `/log_01.txt` both give id 1, so the
    `std::map` of `pruneOldLogs` holds only six entries for seven files. -/
def dupIdStore : Store :=
  [("/log_1.txt", ""), ("/log_01.txt", ""), ("/log_2.txt", ""), ("/log_3.txt", ""),
   ("/log_4.txt", ""), ("/log_5.txt", ""), ("/log_6.txt", "")]

/-- The matching files of a store as (id, name) pairs, in enumeration order
    (proof-side observation of what `pruneOldLogs` maps). -/
def matchedPairs (s : Store) : List (Nat × String) :=
  (logFiles s).map (fun p => (extractId p.1, p.1))

/-- Removal of a list of names in order (proof-side helper used to restate
    the deletion loop of `pruneOldLogs`). -/
def removeNames (s : Store) : List String → Store
  | [] => s
  | nm :: rest => removeNames (storeRemove s nm) rest

/-- Keys strictly increase along the map list (the `std::map` invariant). -/
def SortedKeys (m : List (Nat × String)) : Prop :=
  m.Pairwise (fun a b => a.1 < b.1)

/-- Seven log files with pairwise distinct ids (witness data). -/
def distinctStore : Store :=
  [("/log_1.txt", ""), ("/log_2.txt", ""), ("/log_3.txt", ""), ("/log_4.txt", ""),
   ("/log_5.txt", ""), ("/log_6.txt", ""), ("/log_7.txt", "")]

/-- The name of cycle `j`'s log file (proof-side abbreviation). -/
def logName (j : Nat) : String := "/log_" ++ natToStr j ++ ".txt"

/-- The boot entry written to cycle `j`'s log file at elapsed time 0. -/
def bootLine (j : Nat) : String := renderLine "SYSTEM" ("Boot cycle=" ++ natToStr j) 0

/-- The store contents predicted after `k` error-free boots from empty flash:
    the cycle counter, then the log files of cycles `max 1 (k-5) .. k` in
    creation order (proof-side observation). -/
def predictedStore (k : Nat) : Store :=
  ("/cycle.txt", natToStr k ++ "\r\n") ::
    (List.range' (max 1 (k - 5)) (k + 1 - max 1 (k - 5))).map
      (fun j => (logName j, bootLine j))

/-! ### General helper lemmas -/

theorem mk_data (s : String) : String.mk s.data = s := by cases s; rfl

theorem natDigitsRevAux_stable : ∀ (f₁ : Nat), ∀ {f₂ n : Nat}, n ≤ f₁ → n ≤ f₂ →
    natDigitsRevAux f₁ n = natDigitsRevAux f₂ n := by
  intro f₁
  induction f₁ with
  | zero =>
    intro f₂ n h1 _
    interval_cases n
    cases f₂ <;> rfl
  | succ f ih =>
    intro f₂ n h1 h2
    match n, f₂ with
    | 0, f₂ => cases f₂ <;> rfl
    | m + 1, 0 => omega
    | m + 1, g + 1 =>
      have hkf : (m + 1) / 10 ≤ f := by
        have := Nat.div_lt_self (Nat.succ_pos m) (by norm_num : 1 < 10)
        omega
      have hkg : (m + 1) / 10 ≤ g := by
        have := Nat.div_lt_self (Nat.succ_pos m) (by norm_num : 1 < 10)
        omega
      show Nat.digitChar _ :: natDigitsRevAux f ((m + 1) / 10) =
        Nat.digitChar _ :: natDigitsRevAux g ((m + 1) / 10)
      rw [ih hkf hkg]

theorem natDigitsRev_eq (n : Nat) :
    natDigitsRev n = if n = 0 then [] else Nat.digitChar (n % 10) :: natDigitsRev (n / 10) := by
  match n with
  | 0 => rfl
  | m + 1 =>
    rw [if_neg (Nat.succ_ne_zero m)]
    have hk : (m + 1) / 10 ≤ m := by
      have := Nat.div_lt_self (Nat.succ_pos m) (by norm_num : 1 < 10)
      omega
    show Nat.digitChar ((m + 1) % 10) :: natDigitsRevAux m ((m + 1) / 10) = _
    rw [natDigitsRevAux_stable m hk (le_refl ((m + 1) / 10))]
    rfl

theorem streamFile_eq (l : List Char) : streamFile l = l := by
  induction l with
  | nil => rfl
  | cons b rest ih => simp [streamFile, ih]

theorem rs232Drain_eq (input : List Char) :
    ∀ (rs : String) (echoed : List Char),
      rs232Drain rs echoed input = (String.mk (rs.data ++ input), echoed ++ input) := by
  induction input with
  | nil => intro rs echoed; simp [rs232Drain, mk_data]
  | cons b rest ih => intro rs echoed; simp [rs232Drain, ih, String.data_push]

theorem strStartsWith_of_data_prefix (s p : String) (h : p.data <+: s.data) :
    strStartsWith s p = true := by
  simp [strStartsWith, List.isPrefixOf_iff_prefix, h]

theorem tailAppend_le (buf line : String) : (tailAppend buf line).data.length ≤ 4096 := by
  unfold tailAppend
  split
  · simp only [String.data_append, List.length_drop] at *
    omega
  · omega

theorem tailAppend_suffix (buf line : String) (acc : List Char) (h : buf.data <:+ acc) :
    (tailAppend buf line).data <:+ acc ++ line.data := by
  have hb : (buf ++ line).data <:+ acc ++ line.data := by
    rcases h with ⟨u, hu⟩
    exact ⟨u, by simp [String.data_append, ← hu]⟩
  rcases hb with ⟨v, hv⟩
  by_cases hc : (buf ++ line).data.length > 4096
  · rw [tailAppend, if_pos hc]
    refine ⟨v ++ (buf ++ line).data.take ((buf ++ line).data.length - 4096), ?_⟩
    rw [List.append_assoc, List.take_append_drop, hv]
  · rw [tailAppend, if_neg hc]
    exact ⟨v, hv⟩

/-! ### Log file server: download responses (C4, C10) -/

/-- **C4**: a download of an existing file carries a content length equal to
    the stored file's exact byte count, the attachment name
    `radioTuner_<name>`, and a body streamed byte-identically in order; a
    download of a missing file yields a 404 with a plain-text message and no
    file bytes. -/
theorem download_response_exact (s : Store) (fn : String) :
    (∀ content, storeRead s ("/" ++ fn) = some content →
        handleDownload s fn =
          HttpResp.download content.data.length ("radioTuner_" ++ fn) content) ∧
    (storeRead s ("/" ++ fn) = none →
        handleDownload s fn = HttpResp.notFound "File not found") := by
  constructor
  · intro content h
    simp [handleDownload, h, streamFile_eq, mk_data]
  · intro h
    simp [handleDownload, h]

theorem download_response_exact_witness :
    handleDownload [("/log_3.txt", "abc")] "log_3.txt" =
      HttpResp.download 3 "radioTuner_log_3.txt" "abc" ∧
    handleDownload [("/log_3.txt", "abc")] "nope.txt" =
      HttpResp.notFound "File not found" :=
  ⟨(download_response_exact [("/log_3.txt", "abc")] "log_3.txt").1 "abc" (by decide),
   (download_response_exact [("/log_3.txt", "abc")] "nope.txt").2 (by decide)⟩

/-- **C10**: the download path restricts the requested name in no way: any
    existing file — also one that does not match the log pattern, such as the
    persisted cycle counter — is streamed with a success status. -/
theorem download_no_validation (s : Store) (fn content : String)
    (h : storeRead s ("/" ++ fn) = some content) :
    handleDownload s fn =
      HttpResp.download content.data.length ("radioTuner_" ++ fn) content := by
  simp [handleDownload, h, streamFile_eq, mk_data]

theorem download_no_validation_witness :
    isLogName "/cycle.txt" = false ∧
    handleDownload [("/cycle.txt", "7\r\n")] "cycle.txt" =
      HttpResp.download 3 "radioTuner_cycle.txt" "7\r\n" :=
  ⟨by decide, download_no_validation [("/cycle.txt", "7\r\n")] "cycle.txt" "7\r\n" (by decide)⟩

/-! ### Log recorder (C7, C8, C5) -/

/-- **C7**: a flash failure in `record` is silent (`appendLog` is total and
    returns normally), the entry still reaches the console and the tail
    buffer whatever the flash outcome, and a failed flash write changes
    nothing in the store. -/
theorem appendLog_resilient (d : Dev) (flashOk : Bool) (src msg : String) (e : Nat) :
    (appendLog d flashOk src msg e).console = d.console ++ [renderLine src msg e] ∧
    (appendLog d flashOk src msg e).logBuffer = tailAppend d.logBuffer (renderLine src msg e) ∧
    (appendLog d false src msg e).store = d.store :=
  ⟨rfl, rfl, rfl⟩

theorem recordsFold_aux (rs : List (Bool × String × String × Nat)) :
    ∀ (d : Dev) (acc : List Char), d.logBuffer.data <:+ acc →
      (recordsFold d rs).logBuffer.data <:+ acc ++ sessionLines rs ∧
      ((recordsFold d rs).logBuffer.data.length ≤ 4096 ∨
        (recordsFold d rs).logBuffer = d.logBuffer) := by
  induction rs with
  | nil =>
    intro d acc h
    refine ⟨?_, Or.inr rfl⟩
    simpa [recordsFold, sessionLines] using h
  | cons r rest ih =>
    intro d acc h
    have hstep : (appendLog d r.1 r.2.1 r.2.2.1 r.2.2.2).logBuffer.data <:+
        acc ++ (renderLine r.2.1 r.2.2.1 r.2.2.2).data :=
      tailAppend_suffix _ _ _ h
    have hrec := ih (appendLog d r.1 r.2.1 r.2.2.1 r.2.2.2)
      (acc ++ (renderLine r.2.1 r.2.2.1 r.2.2.2).data) hstep
    constructor
    · have h1 := hrec.1
      rw [List.append_assoc] at h1
      simpa [recordsFold, sessionLines] using h1
    · rcases hrec.2 with h1 | h1
      · exact Or.inl h1
      · refine Or.inl ?_
        show (recordsFold (appendLog d r.1 r.2.1 r.2.2.1 r.2.2.2) rest).logBuffer.data.length
          ≤ 4096
        rw [h1]
        exact tailAppend_le _ _

/-- **C5**: after any sequence of `record` calls within a session (the tail
    buffer starts empty at boot), the tail buffer holds at most 4096 bytes
    and its contents are a contiguous most-recent suffix of the concatenation
    of all lines recorded in the session; every intermediate state is covered
    by instantiating the call list with a prefix. -/
theorem tail_buffer_invariant (rs : List (Bool × String × String × Nat)) (d : Dev)
    (h : d.logBuffer = "") :
    (recordsFold d rs).logBuffer.data.length ≤ 4096 ∧
    (recordsFold d rs).logBuffer.data <:+ sessionLines rs := by
  have base : d.logBuffer.data <:+ ([] : List Char) := by simp [h]
  have main := recordsFold_aux rs d [] base
  refine ⟨?_, by simpa using main.1⟩
  rcases main.2 with h1 | h1
  · exact h1
  · rw [h1, h]
    simp

theorem tail_buffer_invariant_witness :
    (bootsDev 0).logBuffer = "" ∧
    ((recordsFold (bootsDev 0) [(true, "BLE", "hi", 5)]).logBuffer.data.length ≤ 4096 ∧
      (recordsFold (bootsDev 0) [(true, "BLE", "hi", 5)]).logBuffer.data <:+
        sessionLines [(true, "BLE", "hi", 5)]) :=
  ⟨rfl, tail_buffer_invariant [(true, "BLE", "hi", 5)] (bootsDev 0) rfl⟩

/-! ### Data bridge (C6) and advertising (C9) -/

/-- **C6**: a nonempty wireless payload is written to the serial peripheral
    verbatim and in arrival order and is recorded through the log recorder;
    every serial byte is echoed back unmodified and in arrival order, and the
    burst is recorded as a single coalesced message. -/
theorem bridge_verbatim (d : Dev) (flashOk : Bool) (e : Nat) :
    (∀ rx : String, rx.data ≠ [] →
        (bleOnWrite d flashOk e rx).2 = rx.data ∧
        (bleOnWrite d flashOk e rx).1 = appendLog d flashOk "BLE" rx e) ∧
    (∀ input : List Char,
        (serialPoll d flashOk e input).2 = input ∧
        (input ≠ [] →
          (serialPoll d flashOk e input).1 =
            appendLog d flashOk "RS232" (String.mk input) e)) := by
  constructor
  · intro rx hne
    have hlen : rx.data.length > 0 := List.length_pos.mpr hne
    have hlen' : 0 < rx.length := hlen
    simp [bleOnWrite, hlen, hlen']
  · intro input
    by_cases hi : input.isEmpty
    · have hnil : input = [] := List.isEmpty_iff.mp hi
      subst hnil
      simp [serialPoll]
    · constructor
      · simp [serialPoll, hi, rs232Drain_eq]
      · intro _
        simp [serialPoll, hi, rs232Drain_eq]

theorem bridge_verbatim_witness :
    ((bleOnWrite (bootsDev 1) true 5 "ab").2 = ("ab" : String).data ∧
      (bleOnWrite (bootsDev 1) true 5 "ab").1 = appendLog (bootsDev 1) true "BLE" "ab" 5) ∧
    ((serialPoll (bootsDev 1) true 6 ['x']).2 = ['x'] ∧
      (serialPoll (bootsDev 1) true 6 ['x']).1 =
        appendLog (bootsDev 1) true "RS232" (String.mk ['x']) 6) :=
  ⟨(bridge_verbatim (bootsDev 1) true 5).1 "ab" (by decide),
   ⟨((bridge_verbatim (bootsDev 1) true 6).2 ['x']).1,
    ((bridge_verbatim (bootsDev 1) true 6).2 ['x']).2 (by decide)⟩⟩

/-- **C9**: the disconnect handler records the disconnect, restarts
    advertising exactly once, and records the advertising transition
    immediately after initiating it; no other post-boot event handler
    restarts advertising. -/
theorem disconnect_restarts_advertising (d : Dev) :
    handleEvent d Event.bleDisconnect =
      [Action.setConnected false, Action.logEntry "BLE" "Disconnected",
        Action.advertisingStart, Action.logEntry "BLE" "Advertising"] ∧
    (handleEvent d Event.bleDisconnect).count Action.advertisingStart = 1 ∧
    ∀ ev : Event, ev ≠ Event.bleDisconnect →
      Action.advertisingStart ∉ handleEvent d ev := by
  refine ⟨rfl, rfl, ?_⟩
  intro ev hne
  cases ev with
  | bleConnect => simp [handleEvent]
  | bleDisconnect => exact absurd rfl hne
  | bleWrite rx => by_cases hx : rx.data.length > 0 <;> simp [handleEvent, hx]
  | serialData input =>
    by_cases hx : input.isEmpty <;> simp [handleEvent, hx, rs232Drain_eq]
  | wifiStaConnected => simp [handleEvent]
  | wifiStaDisconnected => simp [handleEvent]
  | httpRequest req => simp [handleEvent]

theorem disconnect_restarts_advertising_witness :
    Action.advertisingStart ∉ handleEvent (bootsDev 1) Event.bleConnect ∧
    (handleEvent (bootsDev 1) Event.bleDisconnect).count Action.advertisingStart = 1 :=
  ⟨(disconnect_restarts_advertising (bootsDev 1)).2.2 Event.bleConnect (by decide),
   (disconnect_restarts_advertising (bootsDev 1)).2.1⟩

/-! ### Timestamp format (C8) -/

theorem natDigitsRev_length_le (d : Nat) : ∀ n, n < 10 ^ d → (natDigitsRev n).length ≤ d := by
  induction d with
  | zero =>
    intro n h
    interval_cases n
    simp [natDigitsRev, natDigitsRevAux]
  | succ d ih =>
    intro n h
    by_cases hn : n = 0
    · simp [natDigitsRev, natDigitsRevAux, hn]
    · rw [natDigitsRev_eq, if_neg hn]
      have hdiv : n / 10 < 10 ^ d := by
        rw [Nat.div_lt_iff_lt_mul (by norm_num)]
        calc n < 10 ^ (d + 1) := h
        _ = 10 ^ d * 10 := by ring
      simpa using ih (n / 10) hdiv

theorem natToStr_length_le (d : Nat) (hd : 1 ≤ d) (n : Nat) (h : n < 10 ^ d) :
    (natToStr n).data.length ≤ d := by
  by_cases hn : n = 0
  · subst hn
    simpa [natToStr] using hd
  · simpa [natToStr, hn] using natDigitsRev_length_le d n h

theorem pad3_length (m : Nat) (h : m < 1000) : (pad3 m).data.length = 3 := by
  have hle := natToStr_length_le 3 (by norm_num) m (by omega)
  simp only [pad3, String.data_append, List.length_append, List.length_replicate]
  omega

/-- **C8**: a recorded line renders as
    `<seconds>.<millis> <SOURCE> "<message>"\r\n` with `seconds = e / 1000`
    and `millis = e % 1000` (zero-padded to width 3); within the first
    second, the boot entry of cycle 1 begins with `0.` followed by exactly
    three millis digits. -/
theorem renderLine_format (src msg : String) (e : Nat) :
    renderLine src msg e =
      natToStr (e / 1000) ++ "." ++ pad3 (e % 1000) ++ " " ++ src ++ " \"" ++ msg ++ "\"\r\n" ∧
    (e < 1000 →
      strStartsWith (renderLine "SYSTEM" "Boot cycle=1" e) "0." = true ∧
      (pad3 (e % 1000)).data.length = 3) := by
  refine ⟨rfl, ?_⟩
  intro he
  refine ⟨?_, pad3_length (e % 1000) (Nat.mod_lt e (by norm_num))⟩
  apply strStartsWith_of_data_prefix
  have h0 : e / 1000 = 0 := Nat.div_eq_of_lt he
  have d1 : ("0." : String).data = ['0', '.'] := rfl
  have d3 : ("0" : String).data = ['0'] := rfl
  have d4 : ("." : String).data = ['.'] := rfl
  have d2 : natToStr 0 = "0" := rfl
  simp [renderLine, timestamp, h0, d1, d2, d3, d4, String.data_append,
    List.cons_prefix_cons]

/-! ### Seven boots on empty storage (C1) -/

/-- **C1 fails as stated**: after seven boots on empty storage, `log_2.txt`
    is still present in the flash store and a download of it succeeds — the
    claim asserts it is absent and returns not-found. Pruning runs at the
    start of boot 7 on the six files `log_1..log_6` and removes only
    `log_1`; `log_7` is created afterwards, leaving six stored log files. -/
theorem seven_boots_log2_counterexample :
    ¬ (storeExists (bootsDev 7).store "/log_2.txt" = false ∧
        handleRequest (bootsDev 7) "GET /download?file=log_2.txt HTTP/1.1" =
          HttpResp.notFound "File not found") := by decide

/-- **C1 amended**: after seven boots on empty storage with retention 5, the
    listing shows exactly `log_3.txt` … `log_7.txt`; `log_1.txt` is absent
    and its download returns not-found; `log_2.txt` however remains in the
    flash store (unlisted) and its download succeeds, because pruning runs
    before the new cycle's file is created. -/
theorem seven_boots_retention :
    handleRequest (bootsDev 7) "GET / HTTP/1.1" =
      HttpResp.listing ["log_3.txt", "log_4.txt", "log_5.txt", "log_6.txt", "log_7.txt"] ∧
    storeExists (bootsDev 7).store "/log_1.txt" = false ∧
    handleRequest (bootsDev 7) "GET /download?file=log_1.txt HTTP/1.1" =
      HttpResp.notFound "File not found" ∧
    storeExists (bootsDev 7).store "/log_2.txt" = true ∧
    handleRequest (bootsDev 7) "GET /download?file=log_2.txt HTTP/1.1" =
      HttpResp.download 29 "radioTuner_log_2.txt" "0.000 SYSTEM \"Boot cycle=2\"\r\n" := by
  decide

/-! ### Retention bound with colliding ids (C2 counterexample) -/

/-- **C2 fails as stated**: on a store of seven distinct log-file names, of
    which two parse to the same id (`/log_1.txt`, `/log_01.txt`), pruning
    with retention 5 leaves six matching files — the id map deduplicates the
    colliding names and only the mapped name is ever deleted. -/
theorem prune_count_counterexample :
    ¬ ((logFiles (pruneOldLogs dupIdStore)).length ≤ 5) := by decide

theorem renderLine_format_witness :
    renderLine "A" "x" 2345 =
      natToStr 2 ++ "." ++ pad3 345 ++ " " ++ "A" ++ " \"" ++ "x" ++ "\"\r\n" ∧
    (strStartsWith (renderLine "SYSTEM" "Boot cycle=1" 123) "0." = true ∧
      (pad3 (123 % 1000)).data.length = 3) :=
  ⟨(renderLine_format "A" "x" 2345).1,
   (renderLine_format "SYSTEM" "Boot cycle=1" 123).2 (by decide)⟩

/-! ### Retention manager: the map built by `pruneOldLogs` (C2) -/

theorem mapInsert_mem : ∀ (m : List (Nat × String)) (x : Nat × String) (id : Nat) (v : String),
    x ∈ mapInsert id v m → x = (id, v) ∨ x ∈ m := by
  intro m
  induction m with
  | nil =>
    intro x id v h
    simpa [mapInsert] using h
  | cons e rest ih =>
    intro x id v h
    rcases e with ⟨k, w⟩
    rw [mapInsert] at h
    split at h
    · rcases List.mem_cons.mp h with h | h
      · exact Or.inl h
      · exact Or.inr h
    · split at h
      · rcases List.mem_cons.mp h with h | h
        · exact Or.inl h
        · exact Or.inr (List.mem_cons_of_mem _ h)
      · rcases List.mem_cons.mp h with h | h
        · exact Or.inr (h ▸ List.mem_cons_self _ _)
        · rcases ih x id v h with h | h
          · exact Or.inl h
          · exact Or.inr (List.mem_cons_of_mem _ h)

theorem mapInsert_sorted (id : Nat) (v : String) :
    ∀ (m : List (Nat × String)), SortedKeys m → SortedKeys (mapInsert id v m) := by
  intro m
  induction m with
  | nil =>
    intro _
    simp [mapInsert, SortedKeys]
  | cons e rest ih =>
    intro hs
    rcases e with ⟨k, w⟩
    rcases List.pairwise_cons.mp hs with ⟨hk, hrest⟩
    rw [mapInsert]
    split
    · rename_i h1
      refine List.Pairwise.cons ?_ hs
      intro y hy
      rcases List.mem_cons.mp hy with rfl | hy
      · exact h1
      · exact lt_trans h1 (hk y hy)
    · split
      · rename_i h1 h2
        refine List.Pairwise.cons ?_ hrest
        intro y hy
        exact h2 ▸ hk y hy
      · rename_i h1 h2
        refine List.Pairwise.cons ?_ (ih hrest)
        intro y hy
        rcases mapInsert_mem rest y id v hy with rfl | hy
        · omega
        · exact hk y hy

theorem mapInsert_perm_fresh (id : Nat) (v : String) :
    ∀ (m : List (Nat × String)), id ∉ m.map Prod.fst →
      (mapInsert id v m).Perm ((id, v) :: m) := by
  intro m
  induction m with
  | nil =>
    intro _
    simp [mapInsert]
  | cons e rest ih =>
    intro hfresh
    rcases e with ⟨k, w⟩
    have hne : id ≠ k := by
      intro h
      exact hfresh (by simp [h])
    have hfresh' : id ∉ rest.map Prod.fst := by
      intro h
      exact hfresh (by simp [h])
    rw [mapInsert]
    by_cases h1 : id < k
    · rw [if_pos h1]
    · rw [if_neg h1, if_neg hne]
      exact List.Perm.trans (List.Perm.cons _ (ih hfresh')) (List.Perm.swap _ _ _)

theorem buildMap_sorted : ∀ (l : Store) (m : List (Nat × String)),
    SortedKeys m → SortedKeys (buildMap l m) := by
  intro l
  induction l with
  | nil =>
    intro m hm
    exact hm
  | cons p rest ih =>
    intro m hm
    rcases p with ⟨name, c⟩
    rw [buildMap]
    by_cases h : isLogName name = true
    · rw [if_pos h]
      exact ih _ (mapInsert_sorted _ _ _ hm)
    · rw [if_neg h]
      exact ih _ hm

theorem matchedPairs_cons_log (name c : String) (rest : Store) (h : isLogName name = true) :
    matchedPairs ((name, c) :: rest) = (extractId name, name) :: matchedPairs rest := by
  simp [matchedPairs, logFiles, h]

theorem matchedPairs_cons_other (name c : String) (rest : Store) (h : ¬ isLogName name = true) :
    matchedPairs ((name, c) :: rest) = matchedPairs rest := by
  simp [matchedPairs, logFiles, h]

theorem buildMap_perm : ∀ (l : Store) (m : List (Nat × String)),
    (m.map Prod.fst ++ (matchedPairs l).map Prod.fst).Nodup →
      (buildMap l m).Perm (m ++ matchedPairs l) := by
  intro l
  induction l with
  | nil =>
    intro m _
    simp [buildMap, matchedPairs, logFiles]
  | cons p rest ih =>
    intro m hnd
    rcases p with ⟨name, c⟩
    rw [buildMap]
    by_cases h : isLogName name = true
    · rw [matchedPairs_cons_log name c rest h] at hnd ⊢
      rw [if_pos h]
      have hfresh : extractId name ∉ m.map Prod.fst := by
        have hdisj := List.disjoint_of_nodup_append hnd
        intro hc
        exact hdisj hc (by simp)
      have hperm1 : (mapInsert (extractId name) name m).Perm ((extractId name, name) :: m) :=
        mapInsert_perm_fresh _ _ m hfresh
      have hp : ((mapInsert (extractId name) name m).map Prod.fst ++
          (matchedPairs rest).map Prod.fst).Perm
          (m.map Prod.fst ++ ((extractId name, name) :: matchedPairs rest).map Prod.fst) :=
        ((hperm1.map Prod.fst).append_right _).trans List.perm_middle.symm
      have hkeys := hp.symm.nodup hnd
      exact (ih _ hkeys).trans ((hperm1.append_right _).trans List.perm_middle.symm)
    · rw [if_neg h]
      rw [matchedPairs_cons_other name c rest h] at hnd ⊢
      exact ih m hnd

theorem pruneLoop_eq (n : Nat) : ∀ (m : List (Nat × String)) (s : Store),
    pruneLoop n m s = removeNames s ((m.take (m.length - n)).map Prod.snd) := by
  intro m
  induction m with
  | nil =>
    intro s
    simp [pruneLoop, removeNames]
  | cons e rest ih =>
    intro s
    rw [pruneLoop]
    by_cases h : rest.length + 1 > n
    · rw [if_pos h]
      have hlen : (e :: rest).length - n = (rest.length - n) + 1 := by
        simp only [List.length_cons]
        omega
      rw [hlen, List.take_succ_cons, List.map_cons, removeNames]
      exact ih (storeRemove s e.2)
    · rw [if_neg h]
      have hlen : (e :: rest).length - n = 0 := by
        simp only [List.length_cons]
        omega
      rw [hlen]
      simp [removeNames]

theorem removeNames_eq_filter (names : List String) : ∀ (s : Store),
    removeNames s names = s.filter (fun p => decide (p.1 ∉ names)) := by
  induction names with
  | nil =>
    intro s
    simp [removeNames]
  | cons a rest ih =>
    intro s
    rw [removeNames, ih, storeRemove, List.filter_filter]
    apply List.filter_congr
    intro x _
    by_cases h1 : x.1 = a <;> by_cases h2 : x.1 ∈ rest <;> simp [h1, h2]

theorem sorted_take_mem_iff (n : Nat) : ∀ (m : List (Nat × String)), SortedKeys m →
    ∀ x ∈ m,
      (x ∈ m.take (m.length - n) ↔
        n ≤ (m.filter (fun p => decide (x.1 < p.1))).length) := by
  intro m
  induction m with
  | nil =>
    intro _ x hx
    cases hx
  | cons e rest ih =>
    intro hs x hx
    rcases List.pairwise_cons.mp hs with ⟨hk, hrest⟩
    rcases List.mem_cons.mp hx with rfl | hx
    · have hhead : decide (x.1 < x.1) = false := by simp
      have hft : rest.filter (fun p => decide (x.1 < p.1)) = rest :=
        List.filter_eq_self.mpr (fun p hp => by simpa using hk p hp)
      rw [List.filter_cons, hhead]
      simp only [Bool.false_eq_true, if_false, hft]
      by_cases hn : n ≤ rest.length
      · have hlen : (x :: rest).length - n = (rest.length - n) + 1 := by
          simp only [List.length_cons]
          omega
        rw [hlen, List.take_succ_cons]
        exact iff_of_true (List.mem_cons_self _ _) hn
      · have hlen : (x :: rest).length - n = 0 := by
          simp only [List.length_cons]
          omega
        rw [hlen, List.take_zero]
        exact iff_of_false (List.not_mem_nil _) hn
    · have hx1 : e.1 < x.1 := hk x hx
      have hne : x ≠ e := by
        intro hc
        rw [hc] at hx1
        exact lt_irrefl _ hx1
      have hhead : decide (x.1 < e.1) = false := by
        simp only [decide_eq_false_iff_not]
        omega
      rw [List.filter_cons, hhead]
      simp only [Bool.false_eq_true, if_false]
      by_cases hn : n ≤ rest.length
      · have hlen : (e :: rest).length - n = (rest.length - n) + 1 := by
          simp only [List.length_cons]
          omega
        rw [hlen, List.take_succ_cons]
        rw [List.mem_cons]
        have hiff := ih hrest x hx
        constructor
        · intro hmem
          rcases hmem with hc | hmem
          · exact absurd hc hne
          · exact hiff.mp hmem
        · intro hcnt
          exact Or.inr (hiff.mpr hcnt)
      · have hlen : (e :: rest).length - n = 0 := by
          simp only [List.length_cons]
          omega
        rw [hlen, List.take_zero]
        refine iff_of_false (List.not_mem_nil _) ?_
        have hle := List.length_filter_le (fun p => decide (x.1 < p.1)) rest
        omega

/-- **C2 (amended)**: for every store whose matching log files have pairwise
    distinct extracted ids, pruning with retention limit `n` leaves at most
    `n` matching files, and an id survives exactly when fewer than `n`
    strictly larger ids existed before pruning — the survivors are the `n`
    largest ids, with the lowest-numbered removed first. (Without the
    distinctness proviso the claim fails; see the counterexample.) -/
theorem prune_retention (n : Nat) (s : Store) (h : (logIds s).Nodup) :
    (logIds (prune n s)).length ≤ n ∧
    (∀ i : Nat, i ∈ logIds (prune n s) ↔
      i ∈ logIds s ∧ ((logIds s).filter (fun j => decide (i < j))).length < n) := by
  have hids : logIds s = (matchedPairs s).map Prod.fst := by
    simp [logIds, matchedPairs, List.map_map, Function.comp]
  have hnd_keys : ((matchedPairs s).map Prod.fst).Nodup := by
    rw [← hids]
    exact h
  have hperm : (buildMap s []).Perm (matchedPairs s) := by
    simpa using buildMap_perm s [] (by simpa using hnd_keys)
  have hsorted : SortedKeys (buildMap s []) :=
    buildMap_sorted s [] (by simp [SortedKeys])
  set m := buildMap s [] with hm
  set rm := (m.take (m.length - n)).map Prod.snd with hrm
  have hpr : prune n s = removeNames s rm := pruneLoop_eq n m s
  have hnames_nd : ((matchedPairs s).map Prod.snd).Nodup := by
    have h1 : (List.map extractId ((logFiles s).map (fun p => p.1))).Nodup := by
      simpa [logIds, List.map_map, Function.comp] using h
    have h2 := List.Nodup.of_map extractId h1
    simpa [matchedPairs, List.map_map, Function.comp] using h2
  have hm_snd_nd : (m.map Prod.snd).Nodup :=
    ((hperm.map Prod.snd).nodup_iff).mpr hnames_nd
  have hm_nd : m.Nodup := List.Nodup.of_map Prod.snd hm_snd_nd
  have hsnd_inj : ∀ x ∈ m, ∀ y ∈ m, x.2 = y.2 → x = y :=
    fun x hx y hy hxy => List.inj_on_of_nodup_map hm_snd_nd hx hy hxy
  have hrm_iff : ∀ x ∈ m, (x.2 ∈ rm ↔ x ∈ m.take (m.length - n)) := by
    intro x hx
    constructor
    · intro hmem
      rcases List.mem_map.mp hmem with ⟨y, hy, hyx⟩
      have hy' : y ∈ m := List.take_subset _ _ hy
      have heq : y = x := hsnd_inj y hy' x hx hyx
      exact heq ▸ hy
    · intro hmem
      exact List.mem_map.mpr ⟨x, hmem, rfl⟩
  have hcount : ∀ i : Nat,
      (m.filter (fun p => decide (i < p.1))).length =
        ((logIds s).filter (fun j => decide (i < j))).length := by
    intro i
    have h1 := hperm.countP_eq (fun p => decide (i < p.1))
    rw [List.countP_eq_length_filter, List.countP_eq_length_filter] at h1
    rw [h1, hids, List.filter_map, List.length_map]
    congr 1
  have hsurv : logFiles (prune n s) = (logFiles s).filter (fun p => decide (p.1 ∉ rm)) := by
    rw [hpr, removeNames_eq_filter, logFiles, logFiles, List.filter_filter,
      List.filter_filter]
    apply List.filter_congr
    intro x _
    exact Bool.and_comm _ _
  have hids_surv : logIds (prune n s) =
      ((logFiles s).filter (fun p => decide (p.1 ∉ rm))).map (fun p => extractId p.1) := by
    rw [logIds, hsurv]
  constructor
  · rw [hids_surv, List.length_map]
    have e1 : ((logFiles s).filter (fun p => decide (p.1 ∉ rm))).length =
        ((matchedPairs s).filter (fun q => decide (q.2 ∉ rm))).length := by
      rw [matchedPairs, List.filter_map, List.length_map]
      congr 1
    have e2 : ((matchedPairs s).filter (fun q => decide (q.2 ∉ rm))).length =
        (m.filter (fun q => decide (q.2 ∉ rm))).length := by
      rw [← List.countP_eq_length_filter, ← List.countP_eq_length_filter]
      exact (hperm.countP_eq _).symm
    have hdisj : (m.take (m.length - n)).Disjoint (m.drop (m.length - n)) :=
      List.disjoint_take_drop hm_nd (le_refl _)
    have hfilter_m : m.filter (fun q => decide (q.2 ∉ rm)) = m.drop (m.length - n) := by
      conv_lhs => rw [← List.take_append_drop (m.length - n) m]
      rw [List.filter_append]
      have h1 : (m.take (m.length - n)).filter (fun q => decide (q.2 ∉ rm)) = [] := by
        rw [List.filter_eq_nil_iff]
        intro q hq
        have hmem : q.2 ∈ rm := List.mem_map.mpr ⟨q, hq, rfl⟩
        simp [hmem]
      have h2 : (m.drop (m.length - n)).filter (fun q => decide (q.2 ∉ rm)) =
          m.drop (m.length - n) := by
        apply List.filter_eq_self.mpr
        intro q hq
        simp only [decide_not, Bool.not_eq_eq_eq_not, Bool.not_true, decide_eq_false_iff_not]
        intro hqrm
        rcases List.mem_map.mp hqrm with ⟨y, hy, hyq⟩
        have hq' : q ∈ m := List.drop_subset _ _ hq
        have hy' : y ∈ m := List.take_subset _ _ hy
        have heq : y = q := hsnd_inj y hy' q hq' hyq
        exact hdisj (heq ▸ hy) hq
      rw [h1, h2, List.nil_append]
    rw [e1, e2, hfilter_m, List.length_drop]
    omega
  · intro i
    constructor
    · intro hi
      rw [hids_surv] at hi
      rcases List.mem_map.mp hi with ⟨p, hp, rfl⟩
      have hpfil := List.mem_filter.mp hp
      have hpmem : p ∈ logFiles s := hpfil.1
      have hpnotrm : p.1 ∉ rm := by simpa using hpfil.2
      have hpm : (extractId p.1, p.1) ∈ m :=
        (hperm.mem_iff).mpr (List.mem_map.mpr ⟨p, hpmem, rfl⟩)
      refine ⟨List.mem_map.mpr ⟨p, hpmem, rfl⟩, ?_⟩
      by_contra hge
      push_neg at hge
      have htake : (extractId p.1, p.1) ∈ m.take (m.length - n) := by
        apply (sorted_take_mem_iff n m hsorted _ hpm).mpr
        rw [hcount]
        exact hge
      exact hpnotrm ((hrm_iff _ hpm).mpr htake)
    · rintro ⟨hi_mem, hi_count⟩
      rcases List.mem_map.mp hi_mem with ⟨p, hp, rfl⟩
      have hpm : (extractId p.1, p.1) ∈ m :=
        (hperm.mem_iff).mpr (List.mem_map.mpr ⟨p, hp, rfl⟩)
      have hnot_take : (extractId p.1, p.1) ∉ m.take (m.length - n) := by
        intro hmem
        have hc := (sorted_take_mem_iff n m hsorted _ hpm).mp hmem
        rw [hcount] at hc
        have hc' : n ≤ ((logIds s).filter (fun j => decide (extractId p.1 < j))).length := hc
        omega
      have hnotrm : p.1 ∉ rm := fun hc => hnot_take ((hrm_iff _ hpm).mp hc)
      rw [hids_surv]
      exact List.mem_map.mpr ⟨p, List.mem_filter.mpr ⟨hp, by simpa using hnotrm⟩, rfl⟩

theorem prune_retention_witness :
    (logIds distinctStore).Nodup ∧
    ((logIds (prune 5 distinctStore)).length ≤ 5 ∧
      (∀ i : Nat, i ∈ logIds (prune 5 distinctStore) ↔
        i ∈ logIds distinctStore ∧
          ((logIds distinctStore).filter (fun j => decide (i < j))).length < 5)) :=
  ⟨by decide, prune_retention 5 distinctStore (by decide)⟩

/-! ### Decimal round-trip lemmas (cycle sequencer, C3) -/

theorem digitChar_isDigit (m : Nat) (h : m < 10) : (Nat.digitChar m).isDigit = true := by
  interval_cases m <;> decide

theorem digitChar_val (m : Nat) (h : m < 10) : (Nat.digitChar m).toNat - 48 = m := by
  interval_cases m <;> decide

theorem natDigitsRev_digits : ∀ n, ∀ c ∈ natDigitsRev n, c.isDigit = true := by
  intro n
  induction n using Nat.strong_induction_on with
  | _ n ih =>
    intro c hc
    rw [natDigitsRev_eq] at hc
    by_cases hn : n = 0
    · rw [if_pos hn] at hc
      cases hc
    · rw [if_neg hn] at hc
      rcases List.mem_cons.mp hc with rfl | hc
      · exact digitChar_isDigit _ (Nat.mod_lt _ (by norm_num))
      · exact ih (n / 10) (Nat.div_lt_self (Nat.pos_of_ne_zero hn) (by norm_num)) c hc

theorem digitsVal_append (l₁ : List Char) (h : ∀ c ∈ l₁, c.isDigit = true) :
    ∀ (l₂ : List Char) (acc : Nat),
      digitsVal (l₁ ++ l₂) acc = digitsVal l₂ (digitsVal l₁ acc) := by
  induction l₁ with
  | nil =>
    intro l₂ acc
    rfl
  | cons c rest ih =>
    intro l₂ acc
    have hc : c.isDigit = true := h c (List.mem_cons_self _ _)
    rw [List.cons_append, digitsVal, digitsVal, if_pos hc, if_pos hc]
    exact ih (fun x hx => h x (List.mem_cons_of_mem _ hx)) l₂ _

theorem digitsVal_natDigitsRev : ∀ (n : Nat) (acc : Nat),
    digitsVal ((natDigitsRev n).reverse) acc = acc * 10 ^ (natDigitsRev n).length + n := by
  intro n
  induction n using Nat.strong_induction_on with
  | _ n ih =>
    intro acc
    by_cases hn : n = 0
    · subst hn
      simp [natDigitsRev, natDigitsRevAux, digitsVal]
    · rw [natDigitsRev_eq, if_neg hn, List.reverse_cons,
        digitsVal_append _ (fun c hc => natDigitsRev_digits _ c (List.mem_reverse.mp hc)),
        ih (n / 10) (Nat.div_lt_self (Nat.pos_of_ne_zero hn) (by norm_num)),
        digitsVal, if_pos (digitChar_isDigit _ (Nat.mod_lt _ (by norm_num))), digitsVal,
        digitChar_val _ (Nat.mod_lt _ (by norm_num)), List.length_cons]
      have h2 : n / 10 * 10 + n % 10 = n := by
        have := Nat.div_add_mod n 10
        omega
      have h1 : (acc * 10 ^ (natDigitsRev (n / 10)).length + n / 10) * 10 + n % 10
          = acc * (10 ^ (natDigitsRev (n / 10)).length * 10) + (n / 10 * 10 + n % 10) := by
        ring
      rw [h1, h2, ← pow_succ]

theorem natToStr_val (n : Nat) : digitsVal (natToStr n).data 0 = n := by
  by_cases hn : n = 0
  · subst hn
    decide
  · rw [natToStr, if_neg hn]
    simpa using digitsVal_natDigitsRev n 0

theorem natToStr_data_digits (n : Nat) : ∀ c ∈ (natToStr n).data, c.isDigit = true := by
  by_cases hn : n = 0
  · subst hn
    intro c hc
    rw [show (natToStr 0).data = ['0'] from rfl] at hc
    rcases List.mem_cons.mp hc with rfl | hc
    · decide
    · cases hc
  · rw [natToStr, if_neg hn]
    intro c hc
    exact natDigitsRev_digits n c (List.mem_reverse.mp (by simpa using hc))

theorem natToStr_ne_nil (n : Nat) : (natToStr n).data ≠ [] := by
  by_cases hn : n = 0
  · subst hn
    decide
  · rw [natToStr, if_neg hn]
    have hne : natDigitsRev n ≠ [] := by
      rw [natDigitsRev_eq, if_neg hn]
      exact List.cons_ne_nil _ _
    simpa using hne

theorem digit_ne {c d : Char} (h : c.isDigit = true) (hd : d.isDigit = false) : c ≠ d := by
  intro he
  rw [he, hd] at h
  cases h

theorem isSpaceChar_of_digit {c : Char} (h : c.isDigit = true) : isSpaceChar c = false := by
  by_contra hc
  rw [Bool.not_eq_false] at hc
  simp only [isSpaceChar, Bool.or_eq_true, decide_eq_true_eq] at hc
  rcases hc with ((((rfl | rfl) | rfl) | rfl) | rfl) | rfl <;> exact absurd h (by decide)

theorem parseIntStream_natToStr_crlf (k : Nat) :
    parseIntStream (natToStr k ++ "\r\n") = (k : Int) := by
  have hdata : (natToStr k ++ "\r\n").data = (natToStr k).data ++ ['\r', '\n'] := by
    rw [String.data_append]
  cases hd : (natToStr k).data with
  | nil => exact absurd hd (natToStr_ne_nil k)
  | cons c tl =>
    have hcdig : c.isDigit = true := natToStr_data_digits k c (hd ▸ List.mem_cons_self c tl)
    have hpred : (!c.isDigit && decide (c ≠ '-')) = false := by
      rw [hcdig]
      rfl
    have hdash : c ≠ '-' := digit_ne hcdig (by decide)
    have htl : ∀ x ∈ c :: tl, x.isDigit = true := by
      rw [← hd]
      exact natToStr_data_digits k
    have hscrut : (natToStr k ++ "\r\n").data.dropWhile (fun x => !x.isDigit && x ≠ '-')
        = c :: (tl ++ ['\r', '\n']) := by
      have hpc : ¬ ((!c.isDigit && decide (c ≠ '-')) = true) := by
        rw [hpred]
        exact Bool.false_ne_true
      rw [hdata, hd, List.cons_append, List.dropWhile_cons, if_neg hpc]
    rw [parseIntStream, hscrut]
    show (if c = '-' then -(digitsVal (tl ++ ['\r', '\n']) 0 : Int)
      else (digitsVal (c :: (tl ++ ['\r', '\n'])) 0 : Int)) = (k : Int)
    rw [if_neg hdash]
    rw [← List.cons_append, digitsVal_append (c :: tl) htl]
    rw [show digitsVal (c :: tl) 0 = k from hd ▸ natToStr_val k]
    rw [digitsVal, if_neg (by decide : ¬ (('\r' : Char).isDigit = true))]

theorem atol_natToStr (k : Nat) : atol (natToStr k) = (k : Int) := by
  cases hd : (natToStr k).data with
  | nil => exact absurd hd (natToStr_ne_nil k)
  | cons c tl =>
    have hcdig : c.isDigit = true := natToStr_data_digits k c (hd ▸ List.mem_cons_self c tl)
    have hscrut : (natToStr k).data.dropWhile (fun x => isSpaceChar x) = c :: tl := by
      rw [hd, List.dropWhile_cons]
      simp [isSpaceChar_of_digit hcdig]
    rw [atol, hscrut]
    show (if c = '-' then -(digitsVal tl 0 : Int)
      else if c = '+' then (digitsVal tl 0 : Int)
      else (digitsVal (c :: tl) 0 : Int)) = (k : Int)
    rw [if_neg (digit_ne hcdig (by decide)), if_neg (digit_ne hcdig (by decide))]
    rw [show digitsVal (c :: tl) 0 = k from hd ▸ natToStr_val k]

theorem toUInt32Nat_ofNat (k : Nat) (h : k < 2 ^ 32) : toUInt32Nat (k : Int) = k := by
  rw [toUInt32Nat]
  have h1 : (k : Int).emod (2 ^ 32) = (k : Int) :=
    Int.emod_eq_of_lt (by positivity) (by exact_mod_cast h)
  rw [h1]
  simp

theorem logName_data (j : Nat) : (logName j).data =
    ['/', 'l', 'o', 'g', '_'] ++ ((natToStr j).data ++ ['.', 't', 'x', 't']) := by
  rw [logName, String.data_append, String.data_append, List.append_assoc]

theorem extractId_logName (j : Nat) (hj : j < 2 ^ 32) : extractId (logName j) = j := by
  have hdrop : (logName j).data.drop 5 = (natToStr j).data ++ ['.', 't', 'x', 't'] := by
    rw [logName_data,
      show (5 : Nat) = (['/', 'l', 'o', 'g', '_'] : List Char).length from rfl,
      List.drop_left]
  have hfind : ((natToStr j).data ++ ['.', 't', 'x', 't']).findIdx? (fun x => x = '.')
      = some (natToStr j).data.length := by
    rw [List.findIdx?_append]
    have h1 : (natToStr j).data.findIdx? (fun x => x = '.') = none := by
      rw [List.findIdx?_eq_none_iff]
      intro x hx
      have hne : x ≠ '.' := digit_ne (natToStr_data_digits j x hx) (by decide)
      simp [hne]
    have h2 : (['.', 't', 'x', 't'] : List Char).findIdx? (fun x => x = '.') = some 0 := rfl
    rw [h1, h2]
    simp
  have hidx : idxOfFrom (logName j) '.' 5 = some (5 + (natToStr j).data.length) := by
    rw [idxOfFrom, hdrop, hfind]
    rfl
  have hsub : substrRange (logName j) 5 (5 + (natToStr j).data.length) = natToStr j := by
    rw [substrRange, logName_data]
    rw [show (5 : Nat) + (natToStr j).data.length =
      (['/', 'l', 'o', 'g', '_'] : List Char).length + (natToStr j).data.length from rfl]
    rw [List.take_append, List.take_left]
    rw [show (5 : Nat) = (['/', 'l', 'o', 'g', '_'] : List Char).length from rfl]
    rw [List.drop_left, mk_data]
  rw [extractId, hidx]
  show toUInt32Nat (atol (substrRange (logName j) 5 (5 + (natToStr j).data.length))) = j
  rw [hsub, atol_natToStr, toUInt32Nat_ofNat j hj]

theorem isLogName_logName (j : Nat) : isLogName (logName j) = true := by
  rw [isLogName, Bool.and_eq_true]
  constructor
  · rw [strStartsWith, List.isPrefixOf_iff_prefix, logName, String.data_append,
      String.data_append, List.append_assoc]
    exact List.prefix_append _ _
  · rw [strEndsWith, List.isSuffixOf_iff_suffix, logName, String.data_append]
    exact List.suffix_append _ _

theorem logName_inj {j j' : Nat} (hj : j < 2 ^ 32) (hj' : j' < 2 ^ 32)
    (h : logName j = logName j') : j = j' := by
  have hc := congrArg extractId h
  rwa [extractId_logName j hj, extractId_logName j' hj'] at hc

theorem cycle_ne_logName (j : Nat) : "/cycle.txt" ≠ logName j := by
  intro h
  have h1 : isLogName "/cycle.txt" = false := by decide
  rw [h, isLogName_logName j] at h1
  cases h1

/-! ### The k-boot trajectory (C3) -/

theorem mapInsert_append_of_lt (id : Nat) (v : String) :
    ∀ (m : List (Nat × String)), (∀ p ∈ m, p.1 < id) → mapInsert id v m = m ++ [(id, v)] := by
  intro m
  induction m with
  | nil =>
    intro _
    rfl
  | cons e rest ih =>
    intro hlt
    rcases e with ⟨k, w⟩
    have hk : k < id := hlt (k, w) (List.mem_cons_self _ _)
    rw [mapInsert, if_neg (by omega), if_neg (by omega)]
    rw [ih (fun p hp => hlt p (List.mem_cons_of_mem _ hp))]
    rfl

theorem buildMap_range' : ∀ (len lo : Nat) (m : List (Nat × String)),
    lo + len ≤ 2 ^ 32 → (∀ p ∈ m, p.1 < lo) →
    buildMap ((List.range' lo len).map (fun j => (logName j, bootLine j))) m
      = m ++ (List.range' lo len).map (fun j => (j, logName j)) := by
  intro len
  induction len with
  | zero =>
    intro lo m _ _
    simp [buildMap]
  | succ len ih =>
    intro lo m hbound hlt
    rw [List.range'_succ, List.map_cons, buildMap, if_pos (isLogName_logName lo),
      extractId_logName lo (by omega), mapInsert_append_of_lt lo (logName lo) m hlt]
    have hlt' : ∀ p ∈ m ++ [(lo, logName lo)], p.1 < lo + 1 := by
      intro p hp
      rcases List.mem_append.mp hp with hp | hp
      · exact Nat.lt_succ_of_lt (hlt p hp)
      · rw [List.mem_singleton] at hp
        rw [hp]
        exact Nat.lt_succ_self lo
    rw [ih (lo + 1) (m ++ [(lo, logName lo)]) (by omega) hlt']
    rw [List.map_cons, List.append_assoc]
    rfl

theorem pruneLoop_le (n : Nat) (m : List (Nat × String)) (s : Store) (h : m.length ≤ n) :
    pruneLoop n m s = s := by
  cases m with
  | nil => rfl
  | cons e rest =>
    simp only [List.length_cons] at h
    rw [pruneLoop, if_neg (by omega)]

theorem storeRead_map_none (f : Nat → String × String) (l : List Nat) (name : String)
    (h : ∀ j ∈ l, (f j).1 ≠ name) : storeRead (l.map f) name = none := by
  induction l with
  | nil => rfl
  | cons a rest ih =>
    rw [List.map_cons, storeRead, if_neg (h a (List.mem_cons_self _ _))]
    exact ih (fun j hj => h j (List.mem_cons_of_mem _ hj))

theorem bootsDev_store : ∀ k, 1 ≤ k → k < 2 ^ 32 →
    (bootsDev k).store = predictedStore k ∧ (bootsDev k).cycleId = k := by
  intro k hk
  induction k, hk using Nat.le_induction with
  | base =>
    intro _
    exact ⟨by decide, by decide⟩
  | succ k hk1 ih =>
    intro h2
    have hk2 : k < 2 ^ 32 := by omega
    obtain ⟨hstore, _⟩ := ih hk2
    have hlo1 : (1 : Nat) ≤ max 1 (k - 5) := le_max_left _ _
    have hlok : max 1 (k - 5) ≤ k := by omega
    have hmap : buildMap (predictedStore k) [] =
        (List.range' (max 1 (k - 5)) (k + 1 - max 1 (k - 5))).map (fun j => (j, logName j)) := by
      rw [predictedStore, buildMap, if_neg (by decide)]
      exact buildMap_range' (k + 1 - max 1 (k - 5)) (max 1 (k - 5)) []
        (by omega) (by intro p hp; cases hp)
    have hpruned : pruneOldLogs (predictedStore k) =
        ("/cycle.txt", natToStr k ++ "\r\n") ::
          (List.range' (max 1 (k - 4)) (k + 1 - max 1 (k - 4))).map
            (fun j => (logName j, bootLine j)) := by
      rw [pruneOldLogs, prune, hmap]
      by_cases hsmall : k ≤ 5
      · have hle : ((List.range' (max 1 (k - 5)) (k + 1 - max 1 (k - 5))).map
            (fun j => (j, logName j))).length ≤ 5 := by
          simp only [List.length_map, List.length_range']
          omega
        rw [pruneLoop_le 5 _ _ hle, predictedStore]
        have hmax : max 1 (k - 5) = max 1 (k - 4) := by omega
        rw [hmax]
      · have hmax5 : max 1 (k - 5) = k - 5 := by omega
        have hmax4 : max 1 (k - 4) = k - 4 := by omega
        have hlen6 : k + 1 - max 1 (k - 5) = 5 + 1 := by omega
        have hlen5 : k + 1 - max 1 (k - 4) = 5 := by omega
        rw [hlen6, hmax5, List.range'_succ, List.map_cons, pruneLoop]
        rw [if_pos (by simp only [List.length_map, List.length_range']; omega)]
        rw [pruneLoop_le 5 _ _ (by simp only [List.length_map, List.length_range']; omega)]
        dsimp only
        rw [predictedStore, hlen6, hmax5, List.range'_succ, List.map_cons, storeRemove]
        rw [List.filter_cons, show (("/cycle.txt", natToStr k ++ "\r\n").1 != logName (k - 5))
          = true from bne_iff_ne.mpr (cycle_ne_logName _)]
        simp only [if_true]
        rw [List.filter_cons, show ((logName (k - 5), bootLine (k - 5)).1 != logName (k - 5))
          = false from by simp]
        simp only [Bool.false_eq_true, if_false]
        rw [hlen5, hmax4, show k - 5 + 1 = k - 4 from by omega]
        congr 1
        apply List.filter_eq_self.mpr
        intro p hp
        rcases List.mem_map.mp hp with ⟨j, hj, rfl⟩
        have hjb := List.mem_range'_1.mp hj
        have hjne : logName j ≠ logName (k - 5) := by
          intro hc
          have := logName_inj (by omega) (by omega) hc
          omega
        simpa using hjne
    have hread : storeRead (pruneOldLogs (predictedStore k)) "/cycle.txt"
        = some (natToStr k ++ "\r\n") := by
      rw [hpruned, storeRead, if_pos rfl]
    have hex : storeExists (pruneOldLogs (predictedStore k)) "/cycle.txt" = true := by
      rw [storeExists, hread]
      rfl
    have hwrite : storeWrite (pruneOldLogs (predictedStore k)) "/cycle.txt"
        (natToStr (k + 1) ++ "\r\n") =
        ("/cycle.txt", natToStr (k + 1) ++ "\r\n") ::
          (List.range' (max 1 (k - 4)) (k + 1 - max 1 (k - 4))).map
            (fun j => (logName j, bootLine j)) := by
      rw [storeWrite, if_pos hex, hpruned, List.map_cons, if_pos rfl, List.map_map]
      congr 1
    have hnotex : storeExists
        (("/cycle.txt", natToStr (k + 1) ++ "\r\n") ::
          (List.range' (max 1 (k - 4)) (k + 1 - max 1 (k - 4))).map
            (fun j => (logName j, bootLine j))) (logName (k + 1)) = false := by
      rw [storeExists, storeRead, if_neg (cycle_ne_logName (k + 1))]
      rw [storeRead_map_none]
      · rfl
      · intro j hj hc
        have hjb := List.mem_range'_1.mp hj
        have := logName_inj (by omega) (by omega) hc
        omega
    have hboot : bootsDev (k + 1) = appendLog
        { store := ("/cycle.txt", natToStr (k + 1) ++ "\r\n") ::
            (List.range' (max 1 (k - 4)) (k + 1 - max 1 (k - 4))).map
              (fun j => (logName j, bootLine j)),
          cycleId := k + 1, logFilename := "/log_" ++ natToStr (k + 1) ++ ".txt",
          logBuffer := "", console := [] } true "SYSTEM"
          ("Boot cycle=" ++ natToStr (k + 1)) 0 := by
      show boot (bootsDev k).store = _
      rw [hstore]
      simp only [boot, hread, parseIntStream_natToStr_crlf, toUInt32Nat_ofNat k hk2,
        Nat.mod_eq_of_lt h2, hwrite]
    constructor
    · rw [hboot]
      simp only [appendLog, if_true]
      rw [show "/log_" ++ natToStr (k + 1) ++ ".txt" = logName (k + 1) from rfl]
      rw [show renderLine "SYSTEM" ("Boot cycle=" ++ natToStr (k + 1)) 0 = bootLine (k + 1)
        from rfl]
      rw [storeAppend, hnotex]
      simp only [Bool.false_eq_true, if_false]
      rw [predictedStore, List.cons_append]
      congr 1
      have hplo : max 1 (k + 1 - 5) = max 1 (k - 4) := by omega
      have hlen' : k + 1 + 1 - max 1 (k - 4) = (k + 1 - max 1 (k - 4)) + 1 := by omega
      rw [hplo, hlen', List.range'_1_concat, List.map_append,
        show max 1 (k - 4) + (k + 1 - max 1 (k - 4)) = k + 1 from by omega]
      rfl
    · rw [hboot]
      rfl

theorem logNames_predicted (k : Nat) :
    logNames (predictedStore k) =
      (List.range' (max 1 (k - 5)) (k + 1 - max 1 (k - 5))).map logName := by
  rw [logNames, logFiles, predictedStore, List.filter_cons]
  have hcyc : isLogName ("/cycle.txt", natToStr k ++ "\r\n").1 = false :=
    (by decide : isLogName "/cycle.txt" = false)
  rw [hcyc]
  simp only [Bool.false_eq_true, if_false]
  rw [List.filter_map]
  have hfe : (List.range' (max 1 (k - 5)) (k + 1 - max 1 (k - 5))).filter
      ((fun p => isLogName p.1) ∘ fun j => (logName j, bootLine j)) =
      List.range' (max 1 (k - 5)) (k + 1 - max 1 (k - 5)) :=
    List.filter_eq_self.mpr (fun j _ => isLogName_logName j)
  rw [hfe, List.map_map]
  rfl

/-- **C3**: starting from empty storage with no storage errors, after boot `k`
    the persisted counter file holds exactly `k` (read back as `k` by
    `parseInt`), and boot `k` creates exactly one new log file, named for that
    boot's cycle id. The counter is a `uint32_t` in the source, whence the
    `k < 2^32` domain. -/
theorem cycle_counter_correct (k : Nat) (h1 : 1 ≤ k) (h2 : k < 2 ^ 32) :
    storeRead (bootsDev k).store "/cycle.txt" = some (natToStr k ++ "\r\n") ∧
    parseIntStream (natToStr k ++ "\r\n") = (k : Int) ∧
    (logNames (bootsDev k).store).filter
      (fun nm => decide (nm ∉ logNames (bootsDev (k - 1)).store)) = [logName k] := by
  obtain ⟨hst, _⟩ := bootsDev_store k h1 h2
  refine ⟨?_, parseIntStream_natToStr_crlf k, ?_⟩
  · rw [hst, predictedStore, storeRead, if_pos rfl]
  · by_cases hk1 : k = 1
    · subst hk1
      rw [hst]
      decide
    · obtain ⟨hst', _⟩ := bootsDev_store (k - 1) (by omega) (by omega)
      rw [hst, hst', logNames_predicted, logNames_predicted]
      have hsplit : List.range' (max 1 (k - 5)) (k + 1 - max 1 (k - 5)) =
          List.range' (max 1 (k - 5)) (k - max 1 (k - 5)) ++ [k] := by
        have he : k + 1 - max 1 (k - 5) = (k - max 1 (k - 5)) + 1 := by omega
        rw [he, List.range'_1_concat,
          show max 1 (k - 5) + (k - max 1 (k - 5)) = k from by omega]
      rw [hsplit, List.map_append, List.filter_append]
      have hz : (List.map logName (List.range' (max 1 (k - 5)) (k - max 1 (k - 5)))).filter
          (fun nm => decide (nm ∉
            (List.range' (max 1 (k - 1 - 5)) (k - 1 + 1 - max 1 (k - 1 - 5))).map logName))
          = [] := by
        rw [List.filter_eq_nil_iff]
        intro nm hnm
        rcases List.mem_map.mp hnm with ⟨j, hj, rfl⟩
        have hjb := List.mem_range'_1.mp hj
        have hmem : logName j ∈
            (List.range' (max 1 (k - 1 - 5)) (k - 1 + 1 - max 1 (k - 1 - 5))).map logName :=
          List.mem_map.mpr ⟨j, List.mem_range'_1.mpr (by omega), rfl⟩
        simp [hmem]
      have ho : (List.map logName [k]).filter
          (fun nm => decide (nm ∉
            (List.range' (max 1 (k - 1 - 5)) (k - 1 + 1 - max 1 (k - 1 - 5))).map logName))
          = [logName k] := by
        have hnotmem : logName k ∉
            (List.range' (max 1 (k - 1 - 5)) (k - 1 + 1 - max 1 (k - 1 - 5))).map logName := by
          intro hc
          rcases List.mem_map.mp hc with ⟨j, hj, hje⟩
          have hjb := List.mem_range'_1.mp hj
          have := logName_inj (by omega) (by omega) hje
          omega
        simp [hnotmem]
      rw [hz, ho, List.nil_append]

theorem cycle_counter_correct_witness :
    ((1 : Nat) ≤ 3 ∧ (3 : Nat) < 2 ^ 32) ∧
    (storeRead (bootsDev 3).store "/cycle.txt" = some (natToStr 3 ++ "\r\n") ∧
      parseIntStream (natToStr 3 ++ "\r\n") = (3 : Int) ∧
      (logNames (bootsDev 3).store).filter
        (fun nm => decide (nm ∉ logNames (bootsDev (3 - 1)).store)) = [logName 3]) :=
  ⟨⟨by decide, by decide⟩, cycle_counter_correct 3 (by decide) (by decide)⟩

end RadioTuner
